import Mathlib

/-
Verification of the MGXS data-loading and lookup interface
(src/mgxs_interface.cpp) against its natural-language specification.

The C++ source is shallowly embedded:
  * HDF5 file contents are modelled by the `MgxsFile` structure (attributes
    and the list of named top-level dataset groups);
  * the process-wide globals of namespace `data`/`model` are gathered in the
    `MGState` record and threaded explicitly;
  * `fatal_error` is modelled by the `LoadResult.fatal` constructor, which
    carries the state at the point of failure (the C++ program aborts there);
  * an out-of-bounds container access (undefined behaviour in C++) is
    modelled by the distinguished outcome `LoadResult.ub`;
  * C doubles are modelled by `ℚ` (only ordering and exact arithmetic
    identities of the loader are at stake here, not rounding);
  * the optional `int*` out-parameters of the lookup wrappers are modelled
    by addresses into an explicit little memory `Mem`, so that the claims
    about pointer translation and non-mutation are meaningful.
-/

namespace openmc

/-- Payload of one named dataset group of the library file.  Only the
fissionable flag of the `Mgxs` object built from the group matters for the
claims under study. -/
structure DataSet where
  fissionable : Bool
  deriving Repr, DecidableEq

/-- Contents of an MGXS library file: the `filetype` attribute, the
`version` attribute, the optional `energy_groups` and `group structure`
attributes, and the named top-level dataset groups in file order. -/
structure MgxsFile where
  filetype : String
  version : Int × Int
  energy_groups : Option Int
  group_structure : Option (List ℚ)
  datasets : List (String × DataSet)
  deriving Repr, DecidableEq

/-- Association-list lookup of a named dataset group, first match wins;
this models `object_exists` followed by `open_group`. -/
def dsLookup : List (String × DataSet) → String → Option DataSet
  | [], _ => none
  | p :: rest, n => if p.1 = n then some p.2 else dsLookup rest n

/-- Lookup of a named dataset group in the file. -/
def MgxsFile.lookup (f : MgxsFile) (n : String) : Option DataSet :=
  dsLookup f.datasets n

/-- Names of the top-level dataset groups, in file order; this models
`group_names(file_id)`. -/
def MgxsFile.names (f : MgxsFile) : List String :=
  f.datasets.map Prod.fst

/-- One entry of the `data::nuclides_MG` store: the `Mgxs` object built by
`Mgxs::Mgxs(xs_grp, temperature)` from the dataset group of that name. -/
structure Mgxs where
  name : String
  fissionable : Bool
  deriving Repr, DecidableEq

/-- One entry of `model::materials`, restricted to the two fields touched by
`read_mgxs`: the list of nuclide indices and the mutable fissionable flag. -/
structure Material where
  nuclide_ : List Nat
  fissionable_ : Bool
  deriving Repr, DecidableEq

/-- One entry of the `data::macro_xs` store.  `blank` is the
default-constructed placeholder appended when a material has no
temperatures; `entry` records the constructor arguments, with the non-owning
`Mgxs*` pointers replaced by 0-based indices into `data::nuclides_MG`. -/
inductive MacroEntry
  | blank
  | entry (mat_name : String) (temperature : List ℚ) (mgxs_ptr : List Nat)
      (atom_densities : List ℚ)
  deriving Repr, DecidableEq

/-- Interaction type of a `Library` catalog record. -/
inductive LibraryType
  | neutron
  deriving Repr, DecidableEq

/-- One catalog record of `data::libraries`. -/
structure Library where
  type_ : LibraryType
  materials_ : List String
  deriving Repr, DecidableEq

/-- The process-wide state touched by the interface: the energy-group grid
globals of namespace `data`, the nuclide and macroscopic stores, the library
catalog, and `model::materials`. -/
structure MGState where
  energy_bins : List ℚ
  energy_bin_avg : List ℚ
  rev_energy_bins : List ℚ
  num_energy_groups : Int
  nuclides_MG : List Mgxs
  macro_xs : List MacroEntry
  libraries : List Library
  materials : List Material
  deriving Repr, DecidableEq

/-- Outcome of a state-mutating operation: normal return, `fatal_error`
(carrying the state at the abort point), or undefined behaviour from an
out-of-bounds access. -/
inductive LoadResult (α : Type)
  | ok (a : α)
  | fatal (msg : String) (a : α)
  | ub
  deriving Repr, DecidableEq

/-- Supported MGXS library version pair.  Modelled from the spec: the
constant `VERSION_MGXS_LIBRARY` lives in a constants header outside the
sources under study; only exact equality with the file's version attribute
is ever used. -/
def VERSION_MGXS_LIBRARY : Int × Int := (1, 0)

/-- Environment of `read_mgxs`: whether the file at
`settings::path_cross_sections` exists, its contents, and the index-to-name
table built from `data::nuclide_map`. -/
structure Env where
  file_exists : Bool
  file : MgxsFile
  nuclide_names : List String
  deriving Repr, DecidableEq

/-- Model of `add_mgxs_c`: if the named dataset group exists, construct the
`Mgxs` object and append it to the nuclide store (`emplace_back`); otherwise
`fatal_error` with the store untouched. -/
def add_mgxs_c (file : MgxsFile) (name : String) (nucs : List Mgxs) :
    LoadResult (List Mgxs) :=
  match file.lookup name with
  | some ds => .ok (nucs ++ [⟨name, ds.fissionable⟩])
  | none => .fatal ("Data for " ++ name ++ " does not exist in provided MGXS Library")
      nucs

/-- Body of the deduplication block of the material/nuclide loop of
`read_mgxs`: if the name was already read do nothing, otherwise call
`add_mgxs_c` and record the name in the seen-set. -/
def readStep (file : MgxsFile) (name : String) (read : List String)
    (nucs : List Mgxs) : LoadResult (List String × List Mgxs) :=
  if name ∈ read then .ok (read, nucs)
  else
    match add_mgxs_c file name nucs with
    | .ok nucs1 => .ok (name :: read, nucs1)
    | .fatal msg nucs1 => .fatal msg (read, nucs1)
    | .ub => .ub

/-- Inner loop of `read_mgxs` over one material's nuclide index list:
resolve the index to a name (`nuclide_names[i_nuc]`), run the deduplicated
`add_mgxs_c`, then read `data::nuclides_MG[i_nuc].fissionable` and set the
material's flag accordingly.  Both indexings return `ub` when out of
bounds. -/
def nucLoop (file : MgxsFile) (names : List String) :
    List Nat → Material → List String → List Mgxs →
    LoadResult (Material × List String × List Mgxs)
  | [], mat, read, nucs => .ok (mat, read, nucs)
  | i :: rest, mat, read, nucs =>
    match names[i]? with
    | none => .ub
    | some name =>
      match readStep file name read nucs with
      | .fatal msg rn => .fatal msg (mat, rn.1, rn.2)
      | .ub => .ub
      | .ok (read1, nucs1) =>
        match nucs1[i]? with
        | none => .ub
        | some nuc =>
          nucLoop file names rest
            (if nuc.fissionable then { mat with fissionable_ := true } else mat)
            read1 nucs1

/-- Outer loop of `read_mgxs` over `model::materials`. -/
def matLoop (file : MgxsFile) (names : List String) :
    List Material → List String → List Mgxs →
    LoadResult (List Material × List String × List Mgxs)
  | [], read, nucs => .ok ([], read, nucs)
  | mat :: rest, read, nucs =>
    match nucLoop file names mat.nuclide_ mat read nucs with
    | .fatal msg mrn => .fatal msg (mrn.1 :: rest, mrn.2.1, mrn.2.2)
    | .ub => .ub
    | .ok (mat1, read1, nucs1) =>
      match matLoop file names rest read1 nucs1 with
      | .fatal msg mrn => .fatal msg (mat1 :: mrn.1, mrn.2.1, mrn.2.2)
      | .ub => .ub
      | .ok (rest1, read2, nucs2) => .ok (mat1 :: rest1, read2, nucs2)

/-- Model of `read_mgxs`: existence, filetype and version checks, then the
deduplicated per-material nuclide loading loop with fissionable-flag
propagation. -/
def read_mgxs (env : Env) (s : MGState) : LoadResult MGState :=
  if env.file_exists = false then
    .fatal "Cross sections HDF5 file does not exist." s
  else if env.file.filetype ≠ "mgxs" then
    .fatal "Provided MGXS Library is not a MGXS Library file." s
  else if env.file.version ≠ VERSION_MGXS_LIBRARY then
    .fatal "MGXS Library file version does not match current version supported by OpenMC."
      s
  else
    match matLoop env.file env.nuclide_names s.materials [] s.nuclides_MG with
    | .fatal msg mrn =>
      .fatal msg { s with materials := mrn.1, nuclides_MG := mrn.2.2 }
    | .ub => .ub
    | .ok (mats1, _, nucs1) =>
      .ok { s with materials := mats1, nuclides_MG := nucs1 }

/-- Model of `read_mg_cross_sections_header_c`: read the `energy_groups`
and `group structure` attributes (each absence is fatal via
`ensure_exists`), append the reversed boundary list to `data::energy_bins`,
push the adjacent midpoints onto `data::energy_bin_avg`, then build one
neutron `Library` record per dataset name (an empty catalog is fatal).
An empty `energy_bins` makes the C++ average loop run on
`size() - 1` underflowed to `SIZE_MAX`, reading out of bounds: `ub`. -/
def read_mg_cross_sections_header_c (file : MgxsFile) (s : MGState) :
    LoadResult MGState :=
  match file.energy_groups with
  | none => .fatal "Attribute energy_groups does not exist in MGXS Library." s
  | some ng =>
    match file.group_structure with
    | none =>
      .fatal "Attribute group structure does not exist in MGXS Library."
        { s with num_energy_groups := ng }
    | some gs =>
      let bins := s.energy_bins ++ gs.reverse
      if bins.isEmpty then .ub
      else
        let avgs := s.energy_bin_avg ++ (List.range (bins.length - 1)).map
          (fun i => (1 / 2 : ℚ) * (bins.getD i 0 + bins.getD (i + 1) 0))
        let s1 : MGState :=
          { s with num_energy_groups := ng, rev_energy_bins := gs,
                   energy_bins := bins, energy_bin_avg := avgs }
        if file.names.isEmpty then
          .fatal "At least one MGXS data set must be present in mgxs library file!" s1
        else
          .ok { s1 with libraries := s1.libraries ++
            file.names.map (fun n => ⟨LibraryType.neutron, [n]⟩) }

/-- Model of `create_macro_xs_c`: with a non-empty temperature axis, build
the pointer list `&nuclides_MG[i_nuclides[n] - 1]` (out-of-bounds is `ub`)
and append one `Mgxs` entry; with an empty axis append the blank
placeholder.  Exactly one entry is appended on every normal return. -/
def create_macro_xs_c (mat_name : String) (i_nuclides : List Int)
    (temps : List ℚ) (atom_densities : List ℚ) (nuclides_MG : List Mgxs)
    (macro_xs : List MacroEntry) : LoadResult (List MacroEntry) :=
  if 0 < temps.length then
    if ∀ i ∈ i_nuclides, 1 ≤ i ∧ i ≤ (nuclides_MG.length : Int) then
      .ok (macro_xs ++ [MacroEntry.entry mat_name temps
        (i_nuclides.map (fun i => (i - 1).toNat))
        (atom_densities.take i_nuclides.length)])
    else .ub
  else .ok (macro_xs ++ [MacroEntry.blank])

/-- Arguments of one material-table construction request, as passed by the
material-construction collaborator to `create_macro_xs_c`. -/
structure MacroSpec where
  mat_name : String
  i_nuclides : List Int
  temps : List ℚ
  atom_densities : List ℚ
  deriving Repr, DecidableEq

/-- Entry appended to `data::macro_xs` by one successful
`create_macro_xs_c` call. -/
def macroEntryOf (_nucs : List Mgxs) (spec : MacroSpec) : MacroEntry :=
  if 0 < spec.temps.length then
    MacroEntry.entry spec.mat_name spec.temps
      (spec.i_nuclides.map (fun i => (i - 1).toNat))
      (spec.atom_densities.take spec.i_nuclides.length)
  else MacroEntry.blank

/-- Modelled from the spec: materials are built in declaration order by the
material-construction collaborator, which issues one `create_macro_xs_c`
call per material; that calling loop lives outside the sources under
study. -/
def build_all_macros : List MacroSpec → List Mgxs → List MacroEntry →
    LoadResult (List MacroEntry)
  | [], _, macro_xs => .ok macro_xs
  | spec :: rest, nucs, macro_xs =>
    match create_macro_xs_c spec.mat_name spec.i_nuclides spec.temps
        spec.atom_densities nucs macro_xs with
    | .ok macro1 => build_all_macros rest nucs macro1
    | .fatal msg st => .fatal msg st
    | .ub => .ub

/-- Little memory for the optional `int*` parameters of the lookup
wrappers: a pointer is an `Option Nat` address into the cell list, `none`
being a null pointer. -/
abbrev Mem := List Int

/-- Arguments handed to the internal `Mgxs::get_xs` lookup, after the
wrapper's index translation; the two optional pointers are recorded by the
integer values they point at (`none` for a null pointer). -/
structure XsCall where
  index : Int
  xstype : Int
  gin : Int
  gout : Option Int
  dg : Option Int
  deriving Repr, DecidableEq

/-- Model of the pointer plumbing of `get_nuclide_xs_c`.  The locals
`gout_c`/`dg_c` occupy two fresh cells past the caller's memory `m`; each
non-null caller pointer is dereferenced (`none` result for an invalid
address), the decremented copy is written into the local cell, and the
internal lookup receives a pointer to the local (or null).  On return the
locals are deallocated, leaving the surviving memory. -/
def get_nuclide_xs_c (index xstype gin : Int) (gout dg : Option Nat)
    (m : Mem) : Option (XsCall × Mem) :=
  let aG := m.length
  let aD := m.length + 1
  let m1 := m ++ [0, 0]
  let stepG : Option (Option Nat × Mem) :=
    match gout with
    | some p =>
      match m[p]? with
      | none => none
      | some v => some (some aG, m1.set aG (v - 1))
    | none => some (none, m1)
  match stepG with
  | none => none
  | some (gout_c_p, m2) =>
    let stepD : Option (Option Nat × Mem) :=
      match dg with
      | some q =>
        match m[q]? with
        | none => none
        | some w => some (some aD, m2.set aD (w - 1))
      | none => some (none, m2)
    match stepD with
    | none => none
    | some (dg_c_p, m3) =>
      some (⟨index - 1, xstype, gin - 1,
        gout_c_p.bind (fun a => m3[a]?),
        dg_c_p.bind (fun a => m3[a]?)⟩, m3.take m.length)

/-- Model of the pointer plumbing of `get_macro_xs_c`, textually identical
to `get_nuclide_xs_c` apart from the store the internal lookup targets. -/
def get_macro_xs_c (index xstype gin : Int) (gout dg : Option Nat)
    (m : Mem) : Option (XsCall × Mem) :=
  let aG := m.length
  let aD := m.length + 1
  let m1 := m ++ [0, 0]
  let stepG : Option (Option Nat × Mem) :=
    match gout with
    | some p =>
      match m[p]? with
      | none => none
      | some v => some (some aG, m1.set aG (v - 1))
    | none => some (none, m1)
  match stepG with
  | none => none
  | some (gout_c_p, m2) =>
    let stepD : Option (Option Nat × Mem) :=
      match dg with
      | some q =>
        match m[q]? with
        | none => none
        | some w => some (some aD, m2.set aD (w - 1))
      | none => some (none, m2)
    match stepD with
    | none => none
    | some (dg_c_p, m3) =>
      some (⟨index - 1, xstype, gin - 1,
        gout_c_p.bind (fun a => m3[a]?),
        dg_c_p.bind (fun a => m3[a]?)⟩, m3.take m.length)

/-- Fissionable flag of the dataset group of a name, `false` when the name
is absent from the file; equal, for every instantiated nuclide, to the
fissionable flag of the `Mgxs` object `add_mgxs_c` builds for that name. -/
def fileFiss (file : MgxsFile) (n : String) : Bool :=
  match file.lookup n with
  | some d => d.fissionable
  | none => false

/-- Fissionable flag contributed by nuclide index `i` of a material. -/
def fissOf (file : MgxsFile) (names : List String) (i : Nat) : Bool :=
  match names[i]? with
  | some n => fileFiss file n
  | none => false

/-- Invariant of the deduplicated loading loop: the seen-set holds exactly
the names of the store entries, entry `j` of the store is the table of
`nuclide_names[j]` and carries the fissionable flag of its dataset group,
and no name occurs twice in the store. -/
def StoreInv (file : MgxsFile) (names : List String) (read : List String)
    (nucs : List Mgxs) : Prop :=
  (∀ x, x ∈ read ↔ ∃ t ∈ nucs, t.name = x) ∧
  (∀ (j : Nat) (t : Mgxs), nucs[j]? = some t →
    names[j]? = some t.name ∧ file.lookup t.name = some ⟨t.fissionable⟩) ∧
  (nucs.map (fun t => t.name)).Nodup

/-- Encounter-order discipline of the nuclide index sequence: scanning the
concatenated per-material index lists, every index not seen before equals
the number of distinct indices seen so far, so first uses happen in index
order 0, 1, 2, …, matching how `data::nuclide_map` assigns indices when the
material definitions are read. -/
def denseFrom : List Nat → List Nat → Bool
  | [], _ => true
  | i :: rest, seen =>
    if i ∈ seen then denseFrom rest seen
    else if i = seen.length then denseFrom rest (seen ++ [i]) else false

/-- Bookkeeping invariant tying the ghost list of distinct indices seen so
far to the seen-set and the store. -/
def SeenInv (names : List String) (seen : List Nat) (read : List String)
    (nucs : List Mgxs) : Prop :=
  nucs.length = seen.length ∧
  (∀ i, i ∈ seen ↔ i < nucs.length) ∧
  (∀ x, x ∈ read ↔ ∃ t ∈ nucs, t.name = x) ∧
  (∀ (j : Nat) (t : Mgxs), nucs[j]? = some t → names[j]? = some t.name)


/-
Shared concrete inputs used by the witness theorems.
-/

/-- A small well-formed library file: two groups, three descending
boundaries, one fissionable and one non-fissionable dataset. -/
def fileW : MgxsFile :=
  { filetype := "mgxs", version := (1, 0), energy_groups := some 2,
    group_structure := some [20, 10, 1],
    datasets := [("U235", ⟨true⟩), ("H1", ⟨false⟩)] }

/-- Fresh process state with two materials: material 0 references nuclide 0
and material 1 references nuclides 1 and 0. -/
def s0 : MGState :=
  { energy_bins := [], energy_bin_avg := [], rev_energy_bins := [],
    num_energy_groups := 0, nuclides_MG := [], macro_xs := [],
    libraries := [], materials := [⟨[0], false⟩, ⟨[1, 0], false⟩] }

/-- Environment pairing `fileW` with the name table of `s0`. -/
def envW : Env :=
  { file_exists := true, file := fileW, nuclide_names := ["U235", "H1"] }

/-- Witness state for C1 and C2: the result of loading `envW` over `s0`. -/
def s0r : MGState :=
  { energy_bins := [], energy_bin_avg := [], rev_energy_bins := [],
    num_energy_groups := 0,
    nuclides_MG := [⟨"U235", true⟩, ⟨"H1", false⟩], macro_xs := [],
    libraries := [],
    materials := [⟨[0], true⟩, ⟨[1, 0], true⟩] }

/-- Library file for the C4 witness: only a dataset group named B. -/
def fileM : MgxsFile :=
  { filetype := "mgxs", version := (1, 0), energy_groups := some 2,
    group_structure := some [20, 10, 1], datasets := [("B", ⟨false⟩)] }

/-- Environment for the C4 witness: one nuclide named A. -/
def envM : Env :=
  { file_exists := true, file := fileM, nuclide_names := ["A"] }

/-- State for the C4 witness: one material referencing nuclide 0 (named A,
absent from `fileM`). -/
def sM : MGState :=
  { energy_bins := [], energy_bin_avg := [], rev_energy_bins := [],
    num_energy_groups := 0, nuclides_MG := [], macro_xs := [],
    libraries := [], materials := [⟨[0], false⟩] }

/-
Header characterization, shared by the grid claims.
-/

/-- Normal path of `read_mg_cross_sections_header_c`: with both attributes
present, a non-empty boundary list and a non-empty catalog, the call
succeeds and produces exactly the reversed grid, the midpoint averages and
one neutron library record per dataset name. -/
theorem header_ok (file : MgxsFile) (s : MGState) (ng : Int) (gs : List ℚ)
    (h1 : file.energy_groups = some ng) (h2 : file.group_structure = some gs)
    (hgs : gs ≠ []) (hds : file.datasets ≠ []) (hb : s.energy_bins = []) :
    read_mg_cross_sections_header_c file s = .ok
      { s with num_energy_groups := ng, rev_energy_bins := gs,
               energy_bins := gs.reverse,
               energy_bin_avg := s.energy_bin_avg ++
                 (List.range (gs.reverse.length - 1)).map
                   (fun i => (1 / 2 : ℚ) *
                     (gs.reverse.getD i 0 + gs.reverse.getD (i + 1) 0)),
               libraries := s.libraries ++
                 file.names.map (fun n => ⟨LibraryType.neutron, [n]⟩) } := by
  have hrev : (gs.reverse : List ℚ) ≠ [] := by
    simpa using hgs
  have hnm : file.names ≠ [] := by
    simp [MgxsFile.names, hds]
  simp only [read_mg_cross_sections_header_c, h1, h2, hb, List.nil_append,
    List.isEmpty_iff, hrev, if_false, hnm]

/-- C3: a library file whose version attribute differs from the supported
pair makes `read_mgxs` fail fatally with the state exactly as it was on
entry, so no nuclide table has been added to `data::nuclides_MG` and the
energy-group grid fields are untouched by the load on this error path. -/
theorem read_mgxs_version_mismatch_fatal (env : Env) (s : MGState)
    (hex : env.file_exists = true) (hty : env.file.filetype = "mgxs")
    (hver : env.file.version ≠ VERSION_MGXS_LIBRARY) :
    read_mgxs env s =
      .fatal "MGXS Library file version does not match current version supported by OpenMC."
        s := by
  simp [read_mgxs, hex, hty, hver]

/-- Witness for C3 at a concrete file with version (2, 0). -/
theorem read_mgxs_version_mismatch_fatal_witness :
    read_mgxs { envW with file := { fileW with version := (2, 0) } } s0 =
      .fatal "MGXS Library file version does not match current version supported by OpenMC."
        s0 :=
  read_mgxs_version_mismatch_fatal _ _ (by decide) (by decide) (by decide)

/-- C5: after a successful header load of a valid library (present
attributes, strictly descending boundary list of length `energy_groups + 1`,
non-empty catalog, fresh grid), the ascending boundary array has length
`groupCount + 1` and is strictly increasing. -/
theorem header_grid_length_strict_mono (file : MgxsFile) (s : MGState)
    (ng : Int) (gs : List ℚ)
    (h1 : file.energy_groups = some ng) (h2 : file.group_structure = some gs)
    (hng : 0 ≤ ng) (hlen : (gs.length : Int) = ng + 1)
    (hdec : List.Chain' (fun a b => b < a) gs)
    (hds : file.datasets ≠ []) (hb : s.energy_bins = []) :
    ∃ s', read_mg_cross_sections_header_c file s = .ok s' ∧
      (s'.energy_bins.length : Int) = s'.num_energy_groups + 1 ∧
      List.Chain' (fun a b => a < b) s'.energy_bins := by
  have hgs : gs ≠ [] := by
    intro h
    rw [h] at hlen
    simp at hlen
    omega
  refine ⟨_, header_ok file s ng gs h1 h2 hgs hds hb, ?_, ?_⟩
  · simpa using hlen
  · simpa [List.chain'_reverse, Function.flip_def] using hdec

/-- Witness for C5 at the concrete file `fileW`. -/
theorem header_grid_length_strict_mono_witness :
    ∃ s', read_mg_cross_sections_header_c fileW s0 = .ok s' ∧
      (s'.energy_bins.length : Int) = s'.num_energy_groups + 1 ∧
      List.Chain' (fun a b => a < b) s'.energy_bins :=
  header_grid_length_strict_mono fileW s0 2 [20, 10, 1] (by rfl) (by rfl)
    (by decide) (by decide) (by simp [List.chain'_cons]; norm_num)
    (by decide) (by rfl)

/-- C6: after the header load, the ascending grid's boundary at index `i`
equals the file's descending boundary list (as stored in
`data::rev_energy_bins`) at index `groupCount - i`, for every
`i ≤ groupCount`. -/
theorem header_reversal_round_trip (file : MgxsFile) (s : MGState)
    (ng : Int) (gs : List ℚ)
    (h1 : file.energy_groups = some ng) (h2 : file.group_structure = some gs)
    (hng : 0 ≤ ng) (hlen : (gs.length : Int) = ng + 1)
    (hds : file.datasets ≠ []) (hb : s.energy_bins = []) :
    ∃ s', read_mg_cross_sections_header_c file s = .ok s' ∧
      s'.rev_energy_bins = gs ∧
      ∀ i : Nat, i ≤ s'.num_energy_groups.toNat →
        s'.energy_bins[i]? = s'.rev_energy_bins[s'.num_energy_groups.toNat - i]? := by
  have hgs : gs ≠ [] := by
    intro h
    rw [h] at hlen
    simp at hlen
    omega
  refine ⟨_, header_ok file s ng gs h1 h2 hgs hds hb, rfl, ?_⟩
  intro i hi
  have hi2 : i ≤ ng.toNat := hi
  have hngnn : ng.toNat = gs.length - 1 := by omega
  have hlpos : 0 < gs.length := List.length_pos.2 hgs
  show gs.reverse[i]? = gs[ng.toNat - i]?
  have hilt : i < gs.length := by omega
  have hrev := List.getElem?_reverse (l := gs) (i := i) hilt
  rw [hrev]
  congr 1
  omega

/-- Witness for C6 at the concrete file `fileW`. -/
theorem header_reversal_round_trip_witness :
    ∃ s', read_mg_cross_sections_header_c fileW s0 = .ok s' ∧
      s'.rev_energy_bins = [20, 10, 1] ∧
      ∀ i : Nat, i ≤ s'.num_energy_groups.toNat →
        s'.energy_bins[i]? = s'.rev_energy_bins[s'.num_energy_groups.toNat - i]? :=
  header_reversal_round_trip fileW s0 2 [20, 10, 1] (by rfl) (by rfl)
    (by decide) (by decide) (by decide) (by rfl)

/-- C7: after the header load, the stored average energy of every group `g`
is the arithmetic mean `0.5 * (boundary[g] + boundary[g + 1])` of its two
boundaries on the ascending grid. -/
theorem header_average_energy_midpoint (file : MgxsFile) (s : MGState)
    (ng : Int) (gs : List ℚ)
    (h1 : file.energy_groups = some ng) (h2 : file.group_structure = some gs)
    (hng : 0 ≤ ng) (hlen : (gs.length : Int) = ng + 1)
    (hds : file.datasets ≠ []) (hb : s.energy_bins = [])
    (ha : s.energy_bin_avg = []) :
    ∃ s', read_mg_cross_sections_header_c file s = .ok s' ∧
      ∀ g : Nat, g < s'.num_energy_groups.toNat →
        s'.energy_bin_avg[g]? =
          some ((1 / 2 : ℚ) *
            (s'.energy_bins.getD g 0 + s'.energy_bins.getD (g + 1) 0)) := by
  have hgs : gs ≠ [] := by
    intro h
    rw [h] at hlen
    simp at hlen
    omega
  refine ⟨_, header_ok file s ng gs h1 h2 hgs hds hb, ?_⟩
  intro g hg
  have hg2 : g < ng.toNat := hg
  have hngnn : ng.toNat = gs.length - 1 := by omega
  have hglt : g < gs.reverse.length - 1 := by
    simp only [List.length_reverse]
    omega
  simp only [ha, List.nil_append, List.getElem?_map, List.getElem?_range hglt,
    Option.map_some']

/-- Witness for C7 at the concrete file `fileW`. -/
theorem header_average_energy_midpoint_witness :
    ∃ s', read_mg_cross_sections_header_c fileW s0 = .ok s' ∧
      ∀ g : Nat, g < s'.num_energy_groups.toNat →
        s'.energy_bin_avg[g]? =
          some ((1 / 2 : ℚ) *
            (s'.energy_bins.getD g 0 + s'.energy_bins.getD (g + 1) 0)) :=
  header_average_energy_midpoint fileW s0 2 [20, 10, 1] (by rfl) (by rfl)
    (by decide) (by decide) (by decide) (by rfl) (by rfl)

/-- Taking a prefix that ends at or before the index of a `set` ignores the
write. -/
theorem take_set_high : ∀ (xs : List Int) (n k : Nat) (v : Int), n ≤ k →
    (xs.set k v).take n = xs.take n := by
  intro xs
  induction xs with
  | nil => intro n k v h; simp
  | cons a xs ih =>
    intro n k v h
    cases k with
    | zero =>
      have h0 : n = 0 := Nat.le_zero.1 h
      subst h0
      simp
    | succ k =>
      cases n with
      | zero => simp
      | succ n =>
        simp only [List.set_cons_succ, List.take_succ_cons]
        rw [ih n k v (Nat.le_of_succ_le_succ h)]

/-- C8: both lookup wrappers translate the 1-based table handle and
incoming group to 0-based, translate the pointed-at outgoing-group and
delayed-group values to 0-based when their pointers are non-null, and hand
a null pointer (not a defaulted index) to the internal lookup when the
caller passed null. -/
theorem get_xs_c_index_translation (index xstype gin gv dv : Int)
    (p q : Nat) (m : Mem) (hp : m[p]? = some gv) (hq : m[q]? = some dv) :
    (get_nuclide_xs_c index xstype gin (some p) (some q) m).map Prod.fst =
      some ⟨index - 1, xstype, gin - 1, some (gv - 1), some (dv - 1)⟩ ∧
    (get_nuclide_xs_c index xstype gin none none m).map Prod.fst =
      some ⟨index - 1, xstype, gin - 1, none, none⟩ ∧
    (get_macro_xs_c index xstype gin (some p) (some q) m).map Prod.fst =
      some ⟨index - 1, xstype, gin - 1, some (gv - 1), some (dv - 1)⟩ ∧
    (get_macro_xs_c index xstype gin none none m).map Prod.fst =
      some ⟨index - 1, xstype, gin - 1, none, none⟩ := by
  have haG : m.length < (m ++ [0, 0]).length := by simp
  have hne : m.length + 1 ≠ m.length := by omega
  have haD : m.length + 1 < ((m ++ [0, 0]).set m.length (gv - 1)).length := by
    simp
  refine ⟨?_, ?_, ?_, ?_⟩
  · simp only [get_nuclide_xs_c, hp, hq, Option.some_bind, Option.map_some']
    rw [List.getElem?_set_ne hne, List.getElem?_set_self haG,
      List.getElem?_set_self haD]
  · simp [get_nuclide_xs_c]
  · simp only [get_macro_xs_c, hp, hq, Option.some_bind, Option.map_some']
    rw [List.getElem?_set_ne hne, List.getElem?_set_self haG,
      List.getElem?_set_self haD]
  · simp [get_macro_xs_c]

/-- Witness for C8 on the two-cell memory [7, 9]. -/
theorem get_xs_c_index_translation_witness :
    (get_nuclide_xs_c 5 2 3 (some 0) (some 1) [7, 9]).map Prod.fst =
      some ⟨4, 2, 2, some 6, some 8⟩ ∧
    (get_nuclide_xs_c 5 2 3 none none [7, 9]).map Prod.fst =
      some ⟨4, 2, 2, none, none⟩ ∧
    (get_macro_xs_c 5 2 3 (some 0) (some 1) [7, 9]).map Prod.fst =
      some ⟨4, 2, 2, some 6, some 8⟩ ∧
    (get_macro_xs_c 5 2 3 none none [7, 9]).map Prod.fst =
      some ⟨4, 2, 2, none, none⟩ :=
  get_xs_c_index_translation 5 2 3 7 9 0 1 [7, 9] (by rfl) (by rfl)

/-- C10: a call to either lookup wrapper leaves the caller's memory — in
particular the cells the `gout` and `dg` pointers point at — exactly as it
was: the 1-based-to-0-based decrements are applied to local copies living
past the caller's cells, which are discarded on return. -/
theorem get_xs_c_frame (index xstype gin : Int) (gout dg : Option Nat)
    (m mn mm : Mem) (cn cm : XsCall)
    (hn : get_nuclide_xs_c index xstype gin gout dg m = some (cn, mn))
    (hm : get_macro_xs_c index xstype gin gout dg m = some (cm, mm)) :
    mn = m ∧ mm = m := by
  constructor
  · rcases gout with _ | p <;> rcases dg with _ | q
    · simp only [get_nuclide_xs_c, Option.some.injEq, Prod.mk.injEq] at hn
      rw [← hn.2, List.take_left]
    · rcases hv : m[q]? with _ | w
      · simp [get_nuclide_xs_c, hv] at hn
      · simp only [get_nuclide_xs_c, hv, Option.some.injEq, Prod.mk.injEq] at hn
        rw [← hn.2, take_set_high _ _ _ _ (by omega), List.take_left]
    · rcases hv : m[p]? with _ | v
      · simp [get_nuclide_xs_c, hv] at hn
      · simp only [get_nuclide_xs_c, hv, Option.some.injEq, Prod.mk.injEq] at hn
        rw [← hn.2, take_set_high _ _ _ _ (by omega), List.take_left]
    · rcases hv : m[p]? with _ | v
      · simp [get_nuclide_xs_c, hv] at hn
      · rcases hw : m[q]? with _ | w
        · simp [get_nuclide_xs_c, hv, hw] at hn
        · simp only [get_nuclide_xs_c, hv, hw, Option.some.injEq,
            Prod.mk.injEq] at hn
          rw [← hn.2, take_set_high _ _ _ _ (by omega),
            take_set_high _ _ _ _ (by omega), List.take_left]
  · rcases gout with _ | p <;> rcases dg with _ | q
    · simp only [get_macro_xs_c, Option.some.injEq, Prod.mk.injEq] at hm
      rw [← hm.2, List.take_left]
    · rcases hv : m[q]? with _ | w
      · simp [get_macro_xs_c, hv] at hm
      · simp only [get_macro_xs_c, hv, Option.some.injEq, Prod.mk.injEq] at hm
        rw [← hm.2, take_set_high _ _ _ _ (by omega), List.take_left]
    · rcases hv : m[p]? with _ | v
      · simp [get_macro_xs_c, hv] at hm
      · simp only [get_macro_xs_c, hv, Option.some.injEq, Prod.mk.injEq] at hm
        rw [← hm.2, take_set_high _ _ _ _ (by omega), List.take_left]
    · rcases hv : m[p]? with _ | v
      · simp [get_macro_xs_c, hv] at hm
      · rcases hw : m[q]? with _ | w
        · simp [get_macro_xs_c, hv, hw] at hm
        · simp only [get_macro_xs_c, hv, hw, Option.some.injEq,
            Prod.mk.injEq] at hm
          rw [← hm.2, take_set_high _ _ _ _ (by omega),
            take_set_high _ _ _ _ (by omega), List.take_left]

/-- Witness for C10: after a call with non-null pointers into the memory
[7, 9], the surviving memory is [7, 9] unchanged. -/
theorem get_xs_c_frame_witness : ([7, 9] : Mem) = [7, 9] ∧ ([7, 9] : Mem) = [7, 9] :=
  get_xs_c_frame 5 2 3 (some 0) (some 1) [7, 9] [7, 9] [7, 9]
    ⟨4, 2, 2, some 6, some 8⟩ ⟨4, 2, 2, some 6, some 8⟩ (by rfl) (by rfl)

/-- Normal return of one `create_macro_xs_c` call: exactly the entry
`macroEntryOf` is appended — the built table when the temperature axis is
non-empty, the blank placeholder when it is empty. -/
theorem create_macro_xs_c_ok (spec : MacroSpec) (nucs : List Mgxs)
    (macro_xs : List MacroEntry)
    (hvalid : 0 < spec.temps.length →
      ∀ i ∈ spec.i_nuclides, 1 ≤ i ∧ i ≤ (nucs.length : Int)) :
    create_macro_xs_c spec.mat_name spec.i_nuclides spec.temps
      spec.atom_densities nucs macro_xs =
      .ok (macro_xs ++ [macroEntryOf nucs spec]) := by
  by_cases ht : 0 < spec.temps.length
  · simp [create_macro_xs_c, macroEntryOf, ht, hvalid ht]
    exact hvalid ht
  · simp [create_macro_xs_c, macroEntryOf, ht]

/-- Driver characterization: building every material in declaration order
appends exactly one entry per call, in order. -/
theorem build_all_macros_ok (nucs : List Mgxs) :
    ∀ (specs : List MacroSpec) (macro_xs : List MacroEntry),
    (∀ spec ∈ specs, 0 < spec.temps.length →
      ∀ i ∈ spec.i_nuclides, 1 ≤ i ∧ i ≤ (nucs.length : Int)) →
    build_all_macros specs nucs macro_xs =
      .ok (macro_xs ++ specs.map (macroEntryOf nucs)) := by
  intro specs
  induction specs with
  | nil => intro macro_xs _; simp [build_all_macros]
  | cons spec rest ih =>
    intro macro_xs hvalid
    have hhead := create_macro_xs_c_ok spec nucs macro_xs
      (hvalid spec (List.mem_cons_self spec rest))
    have htail := ih (macro_xs ++ [macroEntryOf nucs spec])
      (fun sp hsp => hvalid sp (List.mem_cons_of_mem spec hsp))
    simp only [build_all_macros, hhead, htail, List.map_cons]
    rw [List.append_assoc]
    rfl

/-- C9: every `create_macro_xs_c` call appends exactly one entry to
`data::macro_xs` — the blank placeholder when the temperature count is
zero — so after building every material in declaration order, the material
at position `k` corresponds to the macroscopic table at position
`macro_xs.length + k` of the store. -/
theorem create_macro_xs_c_positional (specs : List MacroSpec)
    (nucs : List Mgxs) (macro_xs : List MacroEntry)
    (hvalid : ∀ spec ∈ specs, 0 < spec.temps.length →
      ∀ i ∈ spec.i_nuclides, 1 ≤ i ∧ i ≤ (nucs.length : Int)) :
    build_all_macros specs nucs macro_xs =
      .ok (macro_xs ++ specs.map (macroEntryOf nucs)) ∧
    (∀ spec ∈ specs, ∀ macro2 : List MacroEntry,
      create_macro_xs_c spec.mat_name spec.i_nuclides spec.temps
        spec.atom_densities nucs macro2 =
        .ok (macro2 ++ [macroEntryOf nucs spec]) ∧
      (spec.temps = [] → macroEntryOf nucs spec = MacroEntry.blank)) ∧
    (macro_xs ++ specs.map (macroEntryOf nucs)).length =
      macro_xs.length + specs.length ∧
    (∀ (k : Nat) (spec : MacroSpec), specs[k]? = some spec →
      (macro_xs ++ specs.map (macroEntryOf nucs))[macro_xs.length + k]? =
        some (macroEntryOf nucs spec)) := by
  refine ⟨build_all_macros_ok nucs specs macro_xs hvalid, ?_, by simp, ?_⟩
  · intro spec hsp macro2
    refine ⟨create_macro_xs_c_ok spec nucs macro2 (hvalid spec hsp), ?_⟩
    intro ht
    simp [macroEntryOf, ht]
  · intro k spec hk
    rw [List.getElem?_append_right (by omega)]
    simp only [Nat.add_sub_cancel_left, List.getElem?_map, hk, Option.map_some']

/-- Witness for C9: two materials, the second with an empty temperature
axis, built on top of an empty store. -/
theorem create_macro_xs_c_positional_witness :
    build_all_macros
      [⟨"fuel", [1], [300], [2]⟩, ⟨"void", [], [], []⟩] [⟨"U235", true⟩] [] =
      .ok ([] ++ [⟨"fuel", [1], [300], [2]⟩, ⟨"void", [], [], []⟩].map
        (macroEntryOf [⟨"U235", true⟩])) ∧
    (∀ spec ∈ [(⟨"fuel", [1], [300], [2]⟩ : MacroSpec), ⟨"void", [], [], []⟩],
      ∀ macro2 : List MacroEntry,
      create_macro_xs_c spec.mat_name spec.i_nuclides spec.temps
        spec.atom_densities [⟨"U235", true⟩] macro2 =
        .ok (macro2 ++ [macroEntryOf [⟨"U235", true⟩] spec]) ∧
      (spec.temps = [] → macroEntryOf [⟨"U235", true⟩] spec = MacroEntry.blank)) ∧
    (([] : List MacroEntry) ++ [(⟨"fuel", [1], [300], [2]⟩ : MacroSpec), ⟨"void", [], [], []⟩].map
      (macroEntryOf [⟨"U235", true⟩])).length =
      ([] : List MacroEntry).length + 2 ∧
    (∀ (k : Nat) (spec : MacroSpec),
      [(⟨"fuel", [1], [300], [2]⟩ : MacroSpec), ⟨"void", [], [], []⟩][k]? = some spec →
      (([] : List MacroEntry) ++ [(⟨"fuel", [1], [300], [2]⟩ : MacroSpec), ⟨"void", [], [], []⟩].map
        (macroEntryOf [⟨"U235", true⟩]))[([] : List MacroEntry).length + k]? =
        some (macroEntryOf [⟨"U235", true⟩] spec)) :=
  create_macro_xs_c_positional
    [⟨"fuel", [1], [300], [2]⟩, ⟨"void", [], [], []⟩] [⟨"U235", true⟩] []
    (by decide)

/-- Extending the loading-loop invariant by one freshly instantiated
nuclide table appended at the position of its index. -/
theorem StoreInv.extend (file : MgxsFile) (names : List String)
    (read : List String) (nucs : List Mgxs) (name : String) (d : DataSet)
    (i : Nat) (hinv : StoreInv file names read nucs)
    (hni : names[i]? = some name) (hieq : i = nucs.length)
    (hmem : name ∉ read) (hlook : file.lookup name = some d) :
    StoreInv file names (name :: read) (nucs ++ [⟨name, d.fissionable⟩]) := by
  obtain ⟨hread, hposn, hnd⟩ := hinv
  refine ⟨?_, ?_, ?_⟩
  · intro x
    constructor
    · intro hx
      rcases List.mem_cons.1 hx with hx | hx
      · exact ⟨⟨name, d.fissionable⟩, by simp, hx.symm⟩
      · obtain ⟨t, ht, htn⟩ := (hread x).1 hx
        exact ⟨t, List.mem_append_left _ ht, htn⟩
    · rintro ⟨t, ht, rfl⟩
      rcases List.mem_append.1 ht with ht | ht
      · exact List.mem_cons_of_mem _ ((hread t.name).2 ⟨t, ht, rfl⟩)
      · have : t = ⟨name, d.fissionable⟩ := List.mem_singleton.1 ht
        subst this
        exact List.mem_cons_self _ _
  · intro j t hj
    have hjl : j < nucs.length + 1 := by
      have := (List.getElem?_eq_some_iff.1 hj).1
      simpa using this
    by_cases hlt : j < nucs.length
    · rw [List.getElem?_append_left hlt] at hj
      exact hposn j t hj
    · have hje : j = nucs.length := by omega
      subst hje
      rw [List.getElem?_concat_length] at hj
      have ht : t = ⟨name, d.fissionable⟩ := by
        injection hj with h
        exact h.symm
      subst ht
      refine ⟨?_, ?_⟩
      · rw [← hieq]
        exact hni
      · rw [hlook]
  · rw [List.map_append]
    rw [List.nodup_append]
    refine ⟨hnd, by simp, ?_⟩
    intro a ha hb
    have hab : a = name := by simpa using hb
    apply hmem
    apply (hread name).2
    rw [hab] at ha
    obtain ⟨t, ht, htn⟩ := List.mem_map.1 ha
    exact ⟨t, ht, htn⟩

/-- The fissionable flag of a material after the inner loop. -/
theorem mat_flag (mat : Material) (b : Bool) :
    (if b then { mat with fissionable_ := true } else mat).fissionable_ =
      (mat.fissionable_ || b) ∧
    (if b then { mat with fissionable_ := true } else mat).nuclide_ =
      mat.nuclide_ := by
  cases b <;> simp

/-- Total case analysis of the inner loading loop under the invariant: it
ends normally with the invariant extended and the material's flag updated
by the referenced fissionable flags, or aborts fatally with the invariant
still holding, or runs into an out-of-bounds access. -/
theorem nucLoop_cases (file : MgxsFile) (names : List String) :
    ∀ (l : List Nat) (mat : Material) (read : List String) (nucs : List Mgxs),
    StoreInv file names read nucs →
    (∃ mat1 read1 nucs1,
      nucLoop file names l mat read nucs = .ok (mat1, read1, nucs1) ∧
      StoreInv file names read1 nucs1 ∧ nucs <+: nucs1 ∧
      (∀ x ∈ read, x ∈ read1) ∧
      (∀ j ∈ l, ∃ n, names[j]? = some n ∧ n ∈ read1) ∧
      mat1.nuclide_ = mat.nuclide_ ∧
      mat1.fissionable_ = (mat.fissionable_ || l.any (fissOf file names))) ∨
    (∃ msg mat1 read1 nucs1,
      nucLoop file names l mat read nucs = .fatal msg (mat1, read1, nucs1) ∧
      StoreInv file names read1 nucs1 ∧ nucs <+: nucs1) ∨
    nucLoop file names l mat read nucs = .ub := by
  intro l
  induction l with
  | nil =>
    intro mat read nucs hinv
    left
    refine ⟨mat, read, nucs, rfl, hinv, List.prefix_refl _, fun x hx => hx,
      ?_, rfl, by simp⟩
    intro j hj
    cases hj
  | cons i rest ih =>
    intro mat read nucs hinv
    rcases hni : names[i]? with _ | name
    · right; right
      simp [nucLoop, hni]
    · by_cases hmem : name ∈ read
      · have hstep : readStep file name read nucs = .ok (read, nucs) := by
          simp [readStep, hmem]
        rcases hacc : nucs[i]? with _ | nuc
        · right; right
          simp [nucLoop, hni, hstep, hacc]
        · have hpos := hinv.2.1 i nuc hacc
          have hnm : name = nuc.name := by
            rw [hni] at hpos
            injection hpos.1
          have hfis : fissOf file names i = nuc.fissionable := by
            simp [fissOf, hni, fileFiss, hnm, hpos.2]
          have heq : nucLoop file names (i :: rest) mat read nucs =
              nucLoop file names rest
                (if nuc.fissionable then { mat with fissionable_ := true }
                 else mat) read nucs := by
            simp [nucLoop, hni, hstep, hacc]
          rcases ih (if nuc.fissionable then { mat with fissionable_ := true }
              else mat) read nucs hinv with
            ⟨m1, r1, n1, hok, hi1, hp1, hr1, hl1, hm1, hf1⟩ |
            ⟨msg, m1, r1, n1, hf, hi1, hp1⟩ | hub
          · left
            refine ⟨m1, r1, n1, heq ▸ hok, hi1, hp1, hr1, ?_, ?_, ?_⟩
            · intro j hj
              rcases List.mem_cons.1 hj with hj | hj
              · exact ⟨name, hj ▸ hni, hr1 name hmem⟩
              · exact hl1 j hj
            · rw [hm1, (mat_flag mat nuc.fissionable).2]
            · rw [hf1, (mat_flag mat nuc.fissionable).1, List.any_cons, hfis,
                Bool.or_assoc]
          · right; left
            exact ⟨msg, m1, r1, n1, heq ▸ hf, hi1, hp1⟩
          · right; right
            rw [heq]
            exact hub
      · rcases hlook : file.lookup name with _ | d
        · have hstep : readStep file name read nucs =
              .fatal ("Data for " ++ name ++
                " does not exist in provided MGXS Library") (read, nucs) := by
            simp [readStep, hmem, add_mgxs_c, hlook]
          right; left
          refine ⟨"Data for " ++ name ++
            " does not exist in provided MGXS Library", mat, read, nucs, ?_,
            hinv, List.prefix_refl _⟩
          simp [nucLoop, hni, hstep]
        · have hstep : readStep file name read nucs =
              .ok (name :: read, nucs ++ [⟨name, d.fissionable⟩]) := by
            simp [readStep, hmem, add_mgxs_c, hlook]
          rcases hacc : (nucs ++ [(⟨name, d.fissionable⟩ : Mgxs)])[i]? with _ | nuc
          · right; right
            simp [nucLoop, hni, hstep, hacc]
          · have hilt : i < nucs.length + 1 := by
              have := (List.getElem?_eq_some_iff.1 hacc).1
              simpa using this
            have hieq : i = nucs.length := by
              by_contra hne
              have hlt : i < nucs.length := by omega
              have h2 : nucs[i]? = some nuc := by
                rw [List.getElem?_append_left hlt] at hacc
                exact hacc
              have hpos := hinv.2.1 i nuc h2
              have hnm : name = nuc.name := by
                rw [hni] at hpos
                injection hpos.1
              exact hmem ((hinv.1 name).2
                ⟨nuc, List.getElem?_mem h2, hnm.symm⟩)
            have hnuc : nuc = ⟨name, d.fissionable⟩ := by
              rw [hieq, List.getElem?_concat_length] at hacc
              injection hacc with h
              exact h.symm
            have hninv := StoreInv.extend file names read nucs name d i hinv
              hni hieq hmem hlook
            have hfis : fissOf file names i = d.fissionable := by
              simp [fissOf, hni, fileFiss, hlook]
            have heq : nucLoop file names (i :: rest) mat read nucs =
                nucLoop file names rest
                  (if nuc.fissionable then { mat with fissionable_ := true }
                   else mat) (name :: read)
                  (nucs ++ [⟨name, d.fissionable⟩]) := by
              simp [nucLoop, hni, hstep, hacc]
            rcases ih (if nuc.fissionable then { mat with fissionable_ := true }
                else mat) (name :: read) (nucs ++ [⟨name, d.fissionable⟩])
                hninv with
              ⟨m1, r1, n1, hok, hi1, hp1, hr1, hl1, hm1, hf1⟩ |
              ⟨msg, m1, r1, n1, hf, hi1, hp1⟩ | hub
            · left
              refine ⟨m1, r1, n1, heq ▸ hok, hi1,
                (List.prefix_append nucs _).trans hp1, ?_, ?_, ?_, ?_⟩
              · intro x hx
                exact hr1 x (List.mem_cons_of_mem _ hx)
              · intro j hj
                rcases List.mem_cons.1 hj with hj | hj
                · exact ⟨name, hj ▸ hni, hr1 name (List.mem_cons_self _ _)⟩
                · exact hl1 j hj
              · rw [hm1, (mat_flag mat nuc.fissionable).2]
              · rw [hf1, (mat_flag mat nuc.fissionable).1, List.any_cons, hfis,
                  Bool.or_assoc, hnuc]
            · right; left
              exact ⟨msg, m1, r1, n1, heq ▸ hf, hi1,
                (List.prefix_append nucs _).trans hp1⟩
            · right; right
              rw [heq]
              exact hub

/-- Total case analysis of the outer material loop of `read_mgxs` under the
invariant: on normal return every referenced nuclide name is in the
seen-set, the store invariant holds, and each material's fissionable flag
has been or-ed with the flags of its constituent nuclides; a fatal abort
still satisfies the store invariant. -/
theorem matLoop_cases (file : MgxsFile) (names : List String) :
    ∀ (mats : List Material) (read : List String) (nucs : List Mgxs),
    StoreInv file names read nucs →
    (∃ mats1 read1 nucs1,
      matLoop file names mats read nucs = .ok (mats1, read1, nucs1) ∧
      StoreInv file names read1 nucs1 ∧ nucs <+: nucs1 ∧
      (∀ x ∈ read, x ∈ read1) ∧
      (∀ mat ∈ mats, ∀ j ∈ mat.nuclide_, ∃ n, names[j]? = some n ∧ n ∈ read1) ∧
      (∀ (k : Nat) (mat : Material), mats[k]? = some mat →
        mats1[k]? = some ⟨mat.nuclide_,
          mat.fissionable_ || mat.nuclide_.any (fissOf file names)⟩)) ∨
    (∃ msg mats1 read1 nucs1,
      matLoop file names mats read nucs = .fatal msg (mats1, read1, nucs1) ∧
      StoreInv file names read1 nucs1) ∨
    matLoop file names mats read nucs = .ub := by
  intro mats
  induction mats with
  | nil =>
    intro read nucs hinv
    left
    refine ⟨[], read, nucs, rfl, hinv, List.prefix_refl _, fun x hx => hx,
      ?_, ?_⟩
    · intro mat hmat
      cases hmat
    · intro k mat hk
      simp at hk
  | cons mat rest ih =>
    intro read nucs hinv
    rcases nucLoop_cases file names mat.nuclide_ mat read nucs hinv with
      ⟨m1, r1, n1, hok, hi1, hp1, hr1, hl1, hm1, hf1⟩ |
      ⟨msg, m1, r1, n1, hfat, hi1, hp1⟩ | hub
    · rcases ih r1 n1 hi1 with
        ⟨ms2, r2, n2, hok2, hi2, hp2, hr2, hl2, hk2⟩ |
        ⟨msg, ms2, r2, n2, hf2, hi2⟩ | hub2
      · left
        have hm1e : m1 = ⟨mat.nuclide_,
            mat.fissionable_ || mat.nuclide_.any (fissOf file names)⟩ := by
          cases m1
          simp only [Material.mk.injEq]
          exact ⟨hm1, hf1⟩
        refine ⟨m1 :: ms2, r2, n2, by simp [matLoop, hok, hok2], hi2,
          hp1.trans hp2, fun x hx => hr2 x (hr1 x hx), ?_, ?_⟩
        · intro mat2 hmat2 j hj
          rcases List.mem_cons.1 hmat2 with hmat2 | hmat2
          · obtain ⟨n, hn, hnr⟩ := hl1 j (hmat2 ▸ hj)
            exact ⟨n, hn, hr2 n hnr⟩
          · exact hl2 mat2 hmat2 j hj
        · intro k mat2 hk
          cases k with
          | zero =>
            have hmm : mat = mat2 := by simpa using hk
            subst hmm
            simp [hm1e]
          | succ k =>
            simp only [List.getElem?_cons_succ] at hk ⊢
            exact hk2 k mat2 hk
      · right; left
        exact ⟨msg, m1 :: ms2, r2, n2, by simp [matLoop, hok, hf2], hi2⟩
      · right; right
        simp [matLoop, hok, hub2]
    · right; left
      exact ⟨msg, m1 :: rest, r1, n1, by simp [matLoop, hfat], hi1⟩
    · right; right
      simp [matLoop, hub]

/-- The loading-loop invariant holds trivially before anything is read. -/
theorem StoreInv_nil (file : MgxsFile) (names : List String) :
    StoreInv file names [] [] := by
  refine ⟨by simp, ?_, by simp⟩
  intro j t hj
  simp at hj

/-- Elimination principle for a normal return of `read_mgxs` from a fresh
nuclide store: there is a final seen-set satisfying the store invariant,
covering every referenced nuclide name, and every material's flag has been
or-ed with its constituents' fissionable flags. -/
theorem read_mgxs_ok_elim (env : Env) (s s1 : MGState)
    (h0 : s.nuclides_MG = []) (hok : read_mgxs env s = .ok s1) :
    ∃ read1,
      StoreInv env.file env.nuclide_names read1 s1.nuclides_MG ∧
      (∀ mat ∈ s.materials, ∀ j ∈ mat.nuclide_,
        ∃ n, env.nuclide_names[j]? = some n ∧ n ∈ read1) ∧
      (∀ (k : Nat) (mat : Material), s.materials[k]? = some mat →
        s1.materials[k]? = some ⟨mat.nuclide_,
          mat.fissionable_ || mat.nuclide_.any
            (fissOf env.file env.nuclide_names)⟩) := by
  rw [read_mgxs] at hok
  by_cases hex : env.file_exists = false
  · rw [if_pos hex] at hok
    exact absurd hok (by simp)
  · rw [if_neg hex] at hok
    by_cases hty : env.file.filetype ≠ "mgxs"
    · rw [if_pos hty] at hok
      exact absurd hok (by simp)
    · rw [if_neg hty] at hok
      by_cases hver : env.file.version ≠ VERSION_MGXS_LIBRARY
      · rw [if_pos hver] at hok
        exact absurd hok (by simp)
      · rw [if_neg hver] at hok
        rw [h0] at hok
        rcases matLoop_cases env.file env.nuclide_names s.materials [] []
            (StoreInv_nil env.file env.nuclide_names) with
          ⟨mats1, read1, nucs1, hml, hi, hp, hr, hl, hks⟩ |
          ⟨msg, mats1, read1, nucs1, hml, hi⟩ | hml
        · rw [hml] at hok
          have h1 : ({ s with materials := mats1, nuclides_MG := nucs1 } :
              MGState) = s1 := by
            injection hok
          subst h1
          exact ⟨read1, hi, hl, hks⟩
        · rw [hml] at hok
          exact absurd hok (by simp)
        · rw [hml] at hok
          exact absurd hok (by simp)

/-- C1: after a successful `read_mgxs` from a fresh store, with all
material flags initially clear, a material's fissionable flag ends up set
exactly when some constituent nuclide's instantiated table is flagged
fissionable. -/
theorem read_mgxs_material_fissionable (env : Env) (s s1 : MGState)
    (h0 : s.nuclides_MG = [])
    (hff : ∀ mat ∈ s.materials, mat.fissionable_ = false)
    (hok : read_mgxs env s = .ok s1) :
    ∀ (k : Nat) (mat : Material), s.materials[k]? = some mat →
      ∃ mat1, s1.materials[k]? = some mat1 ∧
        (mat1.fissionable_ = true ↔
          ∃ i ∈ mat.nuclide_, ∃ t ∈ s1.nuclides_MG,
            env.nuclide_names[i]? = some t.name ∧ t.fissionable = true) := by
  obtain ⟨read1, hi, hl, hks⟩ := read_mgxs_ok_elim env s s1 h0 hok
  intro k mat hk
  have hmem : mat ∈ s.materials := List.getElem?_mem hk
  refine ⟨_, hks k mat hk, ?_⟩
  simp only [hff mat hmem, Bool.false_or]
  constructor
  · intro h
    obtain ⟨i, himem, hfi⟩ := List.any_eq_true.1 h
    rcases hni : env.nuclide_names[i]? with _ | n
    · simp [fissOf, hni] at hfi
    · simp only [fissOf, hni] at hfi
      obtain ⟨n2, hn2, hn2r⟩ := hl mat hmem i himem
      have hnn : n2 = n := by
        rw [hni] at hn2
        injection hn2 with h2
        exact h2.symm
      subst hnn
      obtain ⟨t, ht, htn⟩ := (hi.1 n2).1 hn2r
      subst htn
      obtain ⟨j, hj⟩ := List.mem_iff_getElem?.1 ht
      have hlook := (hi.2.1 j t hj).2
      simp only [fileFiss, hlook] at hfi
      exact ⟨i, himem, t, ht, hni, hfi⟩
  · rintro ⟨i, himem, t, ht, hnm, htf⟩
    apply List.any_eq_true.2
    refine ⟨i, himem, ?_⟩
    obtain ⟨j, hj⟩ := List.mem_iff_getElem?.1 ht
    have hlook := (hi.2.1 j t hj).2
    simp only [fissOf, hnm, fileFiss, hlook]
    exact htf

/-- Witness for C1: in the concrete run, material 0 (referencing only the
fissionable U235) is flagged and the flag is justified by U235's table. -/
theorem read_mgxs_material_fissionable_witness :
    ∃ mat1, s0r.materials[0]? = some mat1 ∧
      (mat1.fissionable_ = true ↔
        ∃ i ∈ (⟨[0], false⟩ : Material).nuclide_, ∃ t ∈ s0r.nuclides_MG,
          envW.nuclide_names[i]? = some t.name ∧ t.fissionable = true) :=
  read_mgxs_material_fissionable envW s0 s0r (by rfl) (by decide) (by rfl)
    0 ⟨[0], false⟩ (by rfl)

/-- C2: a nuclide name referenced by any material (possibly by several) is
instantiated into `data::nuclides_MG` exactly once: after a successful
`read_mgxs` from a fresh store, the store holds exactly one entry with that
name. -/
theorem read_mgxs_loads_each_nuclide_once (env : Env) (s s1 : MGState)
    (n : String) (h0 : s.nuclides_MG = [])
    (hok : read_mgxs env s = .ok s1)
    (href : ∃ mat ∈ s.materials, ∃ i ∈ mat.nuclide_,
      env.nuclide_names[i]? = some n) :
    (s1.nuclides_MG.map (fun t => t.name)).count n = 1 := by
  obtain ⟨read1, hi, hl, hks⟩ := read_mgxs_ok_elim env s s1 h0 hok
  obtain ⟨mat, hmat, i, himem, hni⟩ := href
  obtain ⟨n2, hn2, hn2r⟩ := hl mat hmat i himem
  have hnn : n2 = n := by
    rw [hni] at hn2
    injection hn2 with h2
    exact h2.symm
  subst hnn
  obtain ⟨t, ht, htn⟩ := (hi.1 n2).1 hn2r
  have hmemmap : n2 ∈ s1.nuclides_MG.map (fun t => t.name) :=
    List.mem_map.2 ⟨t, ht, htn⟩
  have h1 := List.count_pos_iff.2 hmemmap
  have h2 := List.nodup_iff_count_le_one.1 hi.2.2 n2
  omega

/-- Witness for C2: in the concrete run, U235 — referenced by both
materials of `s0` — has exactly one store entry. -/
theorem read_mgxs_loads_each_nuclide_once_witness :
    (s0r.nuclides_MG.map (fun t => t.name)).count "U235" = 1 :=
  read_mgxs_loads_each_nuclide_once envW s0 s0r "U235" (by rfl) (by rfl)
    (by decide)

/-- The seen-index bookkeeping invariant holds initially. -/
theorem SeenInv_nil (names : List String) : SeenInv names [] [] [] := by
  refine ⟨rfl, by simp, by simp, ?_⟩
  intro j t hj
  simp at hj

/-- Under distinct nuclide names and the dense encounter-order discipline,
the inner loop never runs out of bounds: it either aborts fatally or
returns normally with the bookkeeping advanced to the remaining index
sequence. -/
theorem nucLoop_no_ub (file : MgxsFile) (names : List String)
    (hnd : names.Nodup) :
    ∀ (l later seen : List Nat) (mat : Material) (read : List String)
      (nucs : List Mgxs),
    denseFrom (l ++ later) seen = true →
    (∀ i ∈ l, i < names.length) →
    SeenInv names seen read nucs →
    (∃ msg st, nucLoop file names l mat read nucs = .fatal msg st) ∨
    (∃ mat1 read1 nucs1 seen1,
      nucLoop file names l mat read nucs = .ok (mat1, read1, nucs1) ∧
      SeenInv names seen1 read1 nucs1 ∧ denseFrom later seen1 = true) := by
  intro l
  induction l with
  | nil =>
    intro later seen mat read nucs hd hbnd hsi
    right
    exact ⟨mat, read, nucs, seen, rfl, hsi, by simpa using hd⟩
  | cons i rest ih =>
    intro later seen mat read nucs hd hbnd hsi
    obtain ⟨hlens, hseen, hread, hposn⟩ := hsi
    have hib : i < names.length := hbnd i (List.mem_cons_self _ _)
    have hni : names[i]? = some names[i] := List.getElem?_eq_getElem hib
    have hbnd2 : ∀ j ∈ rest, j < names.length :=
      fun j hj => hbnd j (List.mem_cons_of_mem _ hj)
    by_cases hmem : i ∈ seen
    · have hilt : i < nucs.length := (hseen i).1 hmem
      obtain ⟨t, hacc⟩ : ∃ t, nucs[i]? = some t :=
        ⟨nucs[i], List.getElem?_eq_getElem hilt⟩
      have hpos := hposn i t hacc
      have hrm : t.name ∈ read :=
        (hread t.name).2 ⟨t, List.getElem?_mem hacc, rfl⟩
      have hstep : readStep file t.name read nucs = .ok (read, nucs) := by
        simp [readStep, hrm]
      have heq : nucLoop file names (i :: rest) mat read nucs =
          nucLoop file names rest
            (if t.fissionable then { mat with fissionable_ := true } else mat)
            read nucs := by
        simp [nucLoop, hpos, hstep, hacc]
      have hd2 : denseFrom (rest ++ later) seen = true := by
        simpa [denseFrom, hmem] using hd
      rcases ih later seen
          (if t.fissionable then { mat with fissionable_ := true } else mat)
          read nucs hd2 hbnd2 ⟨hlens, hseen, hread, hposn⟩ with
        ⟨msg, st, hf⟩ | ⟨m1, r1, n1, seen1, hok, hsi1, hd1⟩
      · left
        exact ⟨msg, st, heq ▸ hf⟩
      · right
        exact ⟨m1, r1, n1, seen1, heq ▸ hok, hsi1, hd1⟩
    · have hieq : i = seen.length := by
        by_contra hne
        simp [denseFrom, hmem, hne] at hd
      have hilen : i = nucs.length := by omega
      have hnm : names[i] ∉ read := by
        intro hin
        obtain ⟨t, ht, htn⟩ := (hread (names[i])).1 hin
        obtain ⟨j, hj⟩ := List.mem_iff_getElem?.1 ht
        have hjlt : j < nucs.length := (List.getElem?_eq_some_iff.1 hj).1
        have hjpos := hposn j t hj
        have hjb : j < names.length := (List.getElem?_eq_some_iff.1 hjpos).1
        have hji : j = i := by
          apply List.getElem?_inj hjb hnd
          rw [hjpos, hni, htn]
        omega
      rcases hlook : file.lookup (names[i]) with _ | d
      · left
        have hstep : readStep file (names[i]) read nucs =
            .fatal ("Data for " ++ names[i] ++
              " does not exist in provided MGXS Library") (read, nucs) := by
          simp [readStep, hnm, add_mgxs_c, hlook]
        exact ⟨"Data for " ++ names[i] ++
          " does not exist in provided MGXS Library", (mat, read, nucs),
          by simp [nucLoop, hni, hstep]⟩
      · have hstep : readStep file (names[i]) read nucs =
            .ok (names[i] :: read,
              nucs ++ [⟨names[i], d.fissionable⟩]) := by
          simp [readStep, hnm, add_mgxs_c, hlook]
        have hacc : (nucs ++ [(⟨names[i], d.fissionable⟩ : Mgxs)])[i]? =
            some ⟨names[i], d.fissionable⟩ := by
          have hcl := List.getElem?_concat_length nucs
            (⟨names[i], d.fissionable⟩ : Mgxs)
          rw [← hilen] at hcl
          exact hcl
        have heq : nucLoop file names (i :: rest) mat read nucs =
            nucLoop file names rest
              (if d.fissionable then { mat with fissionable_ := true }
               else mat)
              (names[i] :: read) (nucs ++ [⟨names[i], d.fissionable⟩]) := by
          simp [nucLoop, hni, hstep, hacc]
        have hsi2 : SeenInv names (seen ++ [i]) (names[i] :: read)
            (nucs ++ [⟨names[i], d.fissionable⟩]) := by
          refine ⟨by simp [hlens], ?_, ?_, ?_⟩
          · intro j
            simp only [List.mem_append, List.mem_singleton, List.length_append,
              List.length_singleton]
            constructor
            · intro hj
              rcases hj with hj | hj
              · have := (hseen j).1 hj
                omega
              · omega
            · intro hj
              by_cases hjlt : j < nucs.length
              · exact Or.inl ((hseen j).2 hjlt)
              · right
                omega
          · intro x
            constructor
            · intro hx
              rcases List.mem_cons.1 hx with hx | hx
              · exact ⟨⟨names[i], d.fissionable⟩, by simp, hx.symm⟩
              · obtain ⟨t, ht, htn⟩ := (hread x).1 hx
                exact ⟨t, List.mem_append_left _ ht, htn⟩
            · rintro ⟨t, ht, rfl⟩
              rcases List.mem_append.1 ht with ht | ht
              · exact List.mem_cons_of_mem _ ((hread t.name).2 ⟨t, ht, rfl⟩)
              · have hte : t = ⟨names[i], d.fissionable⟩ := by simpa using ht
                subst hte
                exact List.mem_cons_self _ _
          · intro j t hj
            have hjl : j < nucs.length + 1 := by
              have := (List.getElem?_eq_some_iff.1 hj).1
              simpa using this
            by_cases hjlt : j < nucs.length
            · rw [List.getElem?_append_left hjlt] at hj
              exact hposn j t hj
            · have hje : j = nucs.length := by omega
              subst hje
              rw [List.getElem?_concat_length] at hj
              have ht : t = ⟨names[i], d.fissionable⟩ := by
                injection hj with h
                exact h.symm
              subst ht
              rw [← hilen]
              exact hni
        have hd2 : denseFrom (rest ++ later) (seen ++ [i]) = true := by
          simp only [List.cons_append, denseFrom] at hd
          rw [if_neg hmem, if_pos hieq] at hd
          exact hd
        rcases ih later (seen ++ [i])
            (if d.fissionable then { mat with fissionable_ := true } else mat)
            (names[i] :: read) (nucs ++ [⟨names[i], d.fissionable⟩])
            hd2 hbnd2 hsi2 with
          ⟨msg, st, hf⟩ | ⟨m1, r1, n1, seen1, hok, hsi1, hd1⟩
        · left
          exact ⟨msg, st, heq ▸ hf⟩
        · right
          exact ⟨m1, r1, n1, seen1, heq ▸ hok, hsi1, hd1⟩

/-- Under distinct nuclide names and the dense encounter-order discipline,
the outer material loop never runs out of bounds: it aborts fatally or
returns normally. -/
theorem matLoop_no_ub (file : MgxsFile) (names : List String)
    (hnd : names.Nodup) :
    ∀ (mats : List Material) (seen : List Nat) (read : List String)
      (nucs : List Mgxs),
    denseFrom ((mats.map (fun m => m.nuclide_)).join) seen = true →
    (∀ mat ∈ mats, ∀ i ∈ mat.nuclide_, i < names.length) →
    SeenInv names seen read nucs →
    (∃ msg st, matLoop file names mats read nucs = .fatal msg st) ∨
    (∃ res, matLoop file names mats read nucs = .ok res) := by
  intro mats
  induction mats with
  | nil =>
    intro seen read nucs hd hbnd hsi
    right
    exact ⟨([], read, nucs), rfl⟩
  | cons mat rest ih =>
    intro seen read nucs hd hbnd hsi
    have hd1 : denseFrom (mat.nuclide_ ++
        ((rest.map (fun m => m.nuclide_)).join)) seen = true := by
      simpa using hd
    have hbnd1 : ∀ i ∈ mat.nuclide_, i < names.length :=
      hbnd mat (List.mem_cons_self _ _)
    rcases nucLoop_no_ub file names hnd mat.nuclide_
        ((rest.map (fun m => m.nuclide_)).join) seen mat read nucs
        hd1 hbnd1 hsi with
      ⟨msg, st, hf⟩ | ⟨m1, r1, n1, seen1, hok, hsi1, hdd⟩
    · left
      exact ⟨msg, (st.1 :: rest, st.2.1, st.2.2), by simp [matLoop, hf]⟩
    · have hbnd2 : ∀ mat2 ∈ rest, ∀ i ∈ mat2.nuclide_, i < names.length :=
        fun mat2 hm => hbnd mat2 (List.mem_cons_of_mem _ hm)
      rcases ih seen1 r1 n1 hdd hbnd2 hsi1 with
        ⟨msg, st, hf2⟩ | ⟨res, hok2⟩
      · left
        exact ⟨msg, (m1 :: st.1, st.2.1, st.2.2), by simp [matLoop, hok, hf2]⟩
      · right
        exact ⟨(m1 :: res.1, res.2.1, res.2.2), by simp [matLoop, hok, hok2]⟩

/-- A fatal abort of the material loop from an invariant-satisfying state
leaves a store that still satisfies the invariant. -/
theorem matLoop_fatal_inv (file : MgxsFile) (names : List String)
    (mats : List Material) (read : List String) (nucs : List Mgxs)
    (msg : String) (mats1 : List Material) (read1 : List String)
    (nucs1 : List Mgxs) (hinv : StoreInv file names read nucs)
    (hf : matLoop file names mats read nucs = .fatal msg (mats1, read1, nucs1)) :
    StoreInv file names read1 nucs1 := by
  rcases matLoop_cases file names mats read nucs hinv with
    ⟨m2, r2, n2, hml, hi, hp, hr, hl, hks⟩ |
    ⟨msg2, m2, r2, n2, hml, hi⟩ | hml
  · rw [hml] at hf
    exact absurd hf (by simp)
  · rw [hml] at hf
    injection hf with h1 h2
    injection h2 with h3 h4
    injection h4 with h5 h6
    rw [← h5, ← h6]
    exact hi
  · rw [hml] at hf
    exact absurd hf (by simp)

/-- C4: when a material references a nuclide name with no dataset group in
the library file, `read_mgxs` fails fatally, the failure happens inside
`add_mgxs_c` before the table is appended (the missing name never enters
the store), and `data::macro_xs` is untouched, so no macroscopic table has
been built. -/
theorem read_mgxs_missing_dataset_fatal (env : Env) (s : MGState) (n : String)
    (hex : env.file_exists = true) (hty : env.file.filetype = "mgxs")
    (hver : env.file.version = VERSION_MGXS_LIBRARY)
    (hnd : env.nuclide_names.Nodup)
    (hdense : denseFrom ((s.materials.map (fun m => m.nuclide_)).join) [] = true)
    (hbnd : ∀ mat ∈ s.materials, ∀ i ∈ mat.nuclide_,
      i < env.nuclide_names.length)
    (h0 : s.nuclides_MG = [])
    (href : ∃ mat ∈ s.materials, ∃ i ∈ mat.nuclide_,
      env.nuclide_names[i]? = some n)
    (hmiss : env.file.lookup n = none) :
    (∃ msg s_e, read_mgxs env s = .fatal msg s_e ∧
      s_e.macro_xs = s.macro_xs ∧ ∀ t ∈ s_e.nuclides_MG, t.name ≠ n) ∧
    (∀ nucs : List Mgxs, add_mgxs_c env.file n nucs =
      .fatal ("Data for " ++ n ++
        " does not exist in provided MGXS Library") nucs) := by
  constructor
  · rcases matLoop_no_ub env.file env.nuclide_names hnd s.materials [] [] []
        hdense hbnd (SeenInv_nil env.nuclide_names) with
      ⟨msg, st, hf⟩ | ⟨res, hok⟩
    · obtain ⟨mats1, read1, nucs1⟩ := st
      have hinv1 := matLoop_fatal_inv env.file env.nuclide_names s.materials
        [] [] msg mats1 read1 nucs1
        (StoreInv_nil env.file env.nuclide_names) hf
      refine ⟨msg, { s with materials := mats1, nuclides_MG := nucs1 },
        ?_, rfl, ?_⟩
      · rw [read_mgxs, if_neg (by simp [hex]), if_neg (by simp [hty]),
          if_neg (by simp [hver]), h0, hf]
      · intro t ht hteq
        obtain ⟨j, hj⟩ := List.mem_iff_getElem?.1 ht
        have hlook := (hinv1.2.1 j t hj).2
        rw [hteq, hmiss] at hlook
        exact absurd hlook (by simp)
    · exfalso
      rcases matLoop_cases env.file env.nuclide_names s.materials [] []
          (StoreInv_nil env.file env.nuclide_names) with
        ⟨m2, r2, n2, hml, hi, hp, hr, hl, hks⟩ |
        ⟨msg2, m2, r2, n2, hml, hi⟩ | hml
      · obtain ⟨mat, hmat, i, himem, hni⟩ := href
        obtain ⟨n2x, hn2, hn2r⟩ := hl mat hmat i himem
        have hnn : n2x = n := by
          rw [hni] at hn2
          injection hn2 with h2
          exact h2.symm
        subst hnn
        obtain ⟨t, ht, htn⟩ := (hi.1 n2x).1 hn2r
        obtain ⟨j, hj⟩ := List.mem_iff_getElem?.1 ht
        have hlook := (hi.2.1 j t hj).2
        rw [htn, hmiss] at hlook
        exact absurd hlook (by simp)
      · rw [hml] at hok
        exact absurd hok (by simp)
      · rw [hml] at hok
        exact absurd hok (by simp)
  · intro nucs
    simp [add_mgxs_c, hmiss]

/-- Witness for C4: a single material references nuclide name A, while the
file only holds a dataset group named B. -/
theorem read_mgxs_missing_dataset_fatal_witness :
    (∃ msg s_e, read_mgxs envM sM = .fatal msg s_e ∧
      s_e.macro_xs = sM.macro_xs ∧ ∀ t ∈ s_e.nuclides_MG, t.name ≠ "A") ∧
    (∀ nucs : List Mgxs, add_mgxs_c envM.file "A" nucs =
      .fatal ("Data for " ++ "A" ++
        " does not exist in provided MGXS Library") nucs) :=
  read_mgxs_missing_dataset_fatal envM sM "A" (by rfl) (by rfl) (by rfl)
    (by decide) (by decide) (by decide) (by rfl) (by decide) (by rfl)
